import Mathlib
set_option maxRecDepth 10000

/-!
# Verification of the tinytorrent bencode codec

Shallow embedding of the bencode codec from `src/parser.rs` and
`src/bencode.rs` (the two files declare byte-for-byte identical `Value`
enums, `ParseError` enums and `parse_benc_value` functions; `src/bencode.rs`
additionally has the `From<&Value> for Vec<u8>` encoder and its own
`parse_torrent_file`, while `src/parser.rs` has the `From<&Value> for
AsciiString` encoder and the `parse_torrent_file` that returns the root
dictionary).

Modelling choices:
* Rust `u8` bytes are `Nat` (< 256 for real inputs); `Vec<u8>` is `List Nat`.
* Rust `i64` is `Int`; the release-mode two's-complement wrap-around of
  `i64` arithmetic is made explicit with `wrap64` (in debug builds the same
  overflows panic; either way the mathematical result differs from the
  unwrapped integer).  `u8` subtraction `val - 48` wraps modulo 256, and
  `usize` arithmetic wraps modulo 2^64.
* `BTreeMap<Value, Value>` is represented by its sorted association list
  (the order being the derived `Ord` on `Value`, embedded as
  `valueCompare`); `BTreeMap::insert` is `mapInsert`, and the indexing
  `map[&key]` used by `src/bencode.rs::parse_torrent_file` is `mapLookup`
  (returning `none` where Rust would panic on a missing key).
* `anyhow` error wrapping (`context`, `ensure!`) preserves the underlying
  `ParseError` kind; the embedding keeps just that kind in `Except`.
* The recursive-descent parser is embedded with an explicit fuel argument
  so that it is structurally recursive and kernel-evaluable.  Every
  iteration of the Rust parser consumes at least one input byte before
  recursing, so `2 * input.length + 2` units of fuel are more than any
  input can use and the out-of-fuel branch is unreachable.
-/

/-- `ParseError` from `src/parser.rs` lines 9-17 (identical in
`src/bencode.rs` lines 10-18). -/
inductive ParseError where
  | UnexpectedByte (b : Nat)
  | UnexpectedEOF
  | InvalidFormat
deriving DecidableEq

/-- `Value` from `src/parser.rs` lines 19-31 (identical in `src/bencode.rs`
lines 20-32): the bencode data model, including the parser-internal `End`
sentinel that the Rust code folds into the public enum. -/
inductive Value where
  | Integer (i : Int)
  | ByteString (bs : List Nat)
  | List (l : List Value)
  | Dictionary (d : List (Value × Value))
  | End

/-- Discriminant order of the `Value` variants, as used by the derived
`Ord` (declaration order in the Rust enum). -/
def tagOf : Value → Nat
  | .Integer _ => 0
  | .ByteString _ => 1
  | .List _ => 2
  | .Dictionary _ => 3
  | .End => 4

/-- Lexicographic comparison of `Vec<u8>` (derived `Ord` on Rust vectors:
elementwise, a strict prefix is less). -/
def compareBytes : List Nat → List Nat → Ordering
  | [], [] => .eq
  | [], _ :: _ => .lt
  | _ :: _, [] => .gt
  | x :: xs, y :: ys =>
    if x < y then .lt else if x = y then compareBytes xs ys else .gt

mutual

/-- The derived `Ord::cmp` on `Value`: variants compare by declaration
order, equal variants by their payloads. -/
def valueCompare : Value → Value → Ordering
  | .Integer x, .Integer y => if x < y then .lt else if x = y then .eq else .gt
  | .ByteString xs, .ByteString ys => compareBytes xs ys
  | .List xs, .List ys => valueCompareList xs ys
  | .Dictionary ps, .Dictionary qs => valueComparePairs ps qs
  | .End, .End => .eq
  | a, b => if tagOf a < tagOf b then .lt else .gt

/-- Lexicographic comparison of `Vec<Value>` (derived `Ord`). -/
def valueCompareList : List Value → List Value → Ordering
  | [], [] => .eq
  | [], _ :: _ => .lt
  | _ :: _, [] => .gt
  | x :: xs, y :: ys =>
    match valueCompare x y with
    | .eq => valueCompareList xs ys
    | o => o

/-- `Ord` on `BTreeMap<Value, Value>`: lexicographic over the sorted
`(key, value)` sequence, pairs comparing key first. -/
def valueComparePairs : List (Value × Value) → List (Value × Value) → Ordering
  | [], [] => .eq
  | [], _ :: _ => .lt
  | _ :: _, [] => .gt
  | (k₁, v₁) :: ps, (k₂, v₂) :: qs =>
    match valueCompare k₁ k₂ with
    | .eq =>
      match valueCompare v₁ v₂ with
      | .eq => valueComparePairs ps qs
      | o => o
    | o => o

end

/-- `BTreeMap::insert` on the sorted-association-list representation: on an
equal key the stored key is kept and only the value replaced, exactly as
documented for `BTreeMap`. -/
def mapInsert (k v : Value) : List (Value × Value) → List (Value × Value)
  | [] => [(k, v)]
  | (k', v') :: t =>
    match valueCompare k k' with
    | .lt => (k, v) :: (k', v') :: t
    | .eq => (k', v) :: t
    | .gt => (k', v') :: mapInsert k v t

/-- `BTreeMap` key lookup (the `map[&key]` indexing); `none` models the
panic Rust raises when the key is absent. -/
def mapLookup (k : Value) : List (Value × Value) → Option Value
  | [] => none
  | (k', v) :: t => if valueCompare k k' = .eq then some v else mapLookup k t

/-- Fueled decimal-digit rendering of a natural number (the digits of
Rust's `to_string`), most significant first, as ASCII bytes. -/
def natDigitsF : Nat → Nat → List Nat
  | 0, _ => []
  | f + 1, n => if n < 10 then [n + 48] else natDigitsF f (n / 10) ++ [n % 10 + 48]

/-- ASCII decimal digits of `n` (`n.to_string()` as bytes).  Fuel `n + 1`
always suffices since the digit count never exceeds `n + 1`. -/
def natDigits (n : Nat) : List Nat := natDigitsF (n + 1) n

/-- `i.to_string()` for `i : i64`, as ASCII bytes: a leading `-` (byte 45)
for negative values, then the decimal digits of the magnitude. -/
def intToDecimal (i : Int) : List Nat :=
  if i < 0 then 45 :: natDigits i.natAbs else natDigits i.natAbs

/-- One lowercase hex digit, as in Rust's `hex::encode`. -/
def hexDigitChar (n : Nat) : Nat := if n < 10 then 48 + n else 87 + n

/-- `hex::encode`: every byte becomes two lowercase hex characters. -/
def hexEncode (bs : List Nat) : List Nat :=
  (bs.map (fun b => [hexDigitChar (b / 16), hexDigitChar (b % 16)])).flatten

mutual

/-- The canonical encoder `From<&Value> for Vec<u8>` of `src/bencode.rs`
lines 159-198: `i<digits>e` for integers, `<len>:<raw bytes>` for byte
strings, `l...e` for lists, `d...e` for dictionaries iterated in their
sorted order, and a bare `e` for the `End` sentinel. -/
def encode : Value → List Nat
  | .Integer i => 105 :: intToDecimal i ++ [101]
  | .ByteString bs => natDigits bs.length ++ 58 :: bs
  | .List l => 108 :: encodeList l ++ [101]
  | .Dictionary d => 100 :: encodePairs d ++ [101]
  | .End => [101]

/-- Concatenated encodings of the elements of a list (the `for item in l`
loop of the encoder). -/
def encodeList : List Value → List Nat
  | [] => []
  | v :: vs => encode v ++ encodeList vs

/-- Concatenated `(key, value)` encodings of a dictionary (the
`for (key, val) in map` loop of the encoder, in map order). -/
def encodePairs : List (Value × Value) → List Nat
  | [] => []
  | (k, v) :: ps => encode k ++ encode v ++ encodePairs ps

end

mutual

/-- The draft encoder `From<&Value> for AsciiString` of `src/parser.rs`
lines 55-89.  It differs from `encode` only in the `ByteString` arm, where
the payload is `hex::encode(bytes)` while the length prefix is still the
raw `bytes.len()`. -/
def encodeAscii : Value → List Nat
  | .Integer i => 105 :: intToDecimal i ++ [101]
  | .ByteString bs => natDigits bs.length ++ 58 :: hexEncode bs
  | .List l => 108 :: encodeAsciiList l ++ [101]
  | .Dictionary d => 100 :: encodeAsciiPairs d ++ [101]
  | .End => [101]

/-- Element loop of the `AsciiString` encoder. -/
def encodeAsciiList : List Value → List Nat
  | [] => []
  | v :: vs => encodeAscii v ++ encodeAsciiList vs

/-- Pair loop of the `AsciiString` encoder. -/
def encodeAsciiPairs : List (Value × Value) → List Nat
  | [] => []
  | (k, v) :: ps => encodeAscii k ++ encodeAscii v ++ encodeAsciiPairs ps

end

/-- Two's-complement wrap-around of `i64` arithmetic (what release-mode
Rust computes on overflow; debug builds panic at the same points). -/
def wrap64 (z : Int) : Int :=
  (z + 9223372036854775808) % 18446744073709551616 - 9223372036854775808

/-- The `b'i'` loop of `parse_benc_value`: read bytes until `e` (byte 101),
computing `x = x * 10 + i64::from(val - 48)` with the wrapping `u8`
subtraction and wrapping `i64` arithmetic of the source. -/
def parseIntLoop : Int → List Nat → Except ParseError (Int × List Nat)
  | _, [] => .error .UnexpectedEOF
  | x, b :: rest =>
    if b = 101 then .ok (x, rest)
    else parseIntLoop (wrap64 (x * 10 + (((b + 208) % 256 : Nat) : Int))) rest

/-- The length loop of the digit branch of `parse_benc_value`: accumulate
further decimal digits into a `usize` (wrapping modulo 2^64) and return the
first non-digit byte together with the rest of the input. -/
def parseLenLoop : Nat → List Nat → Except ParseError (Nat × Nat × List Nat)
  | _, [] => .error .UnexpectedEOF
  | len, b :: rest =>
    if 48 ≤ b ∧ b ≤ 57 then
      parseLenLoop ((len * 10 + (b - 48)) % 18446744073709551616) rest
    else .ok (len, b, rest)

/-- The byte-string read loop of `parse_benc_value`: take exactly `n` bytes
or fail with `UnexpectedEOF`. -/
def readN : Nat → List Nat → Except ParseError (List Nat × List Nat)
  | 0, input => .ok ([], input)
  | _ + 1, [] => .error .UnexpectedEOF
  | n + 1, b :: rest =>
    match readN n rest with
    | .ok (s, r) => .ok (b :: s, r)
    | .error e => .error e

/-- Parser mode: parsing a single value, or inside the `l`-loop with the
items collected so far, or inside the `d`-loop with the map built so far. -/
inductive PMode where
  | value
  | listLoop (acc : List Value)
  | dictLoop (m : List (Value × Value))

/-- Fueled worker for `parse_benc_value` (`src/parser.rs` lines 101-188,
identical in `src/bencode.rs` lines 201-288).  `.value` parses one value by
its leading byte: `i` (105) enters the integer loop, `l` (108) the list
loop, a decimal digit the byte-string branch, `d` (100) the dictionary
loop, `e` (101) yields the `End` sentinel, anything else is
`UnexpectedEOF` (the error kind the source really returns there); empty
input is a clean `Ok(None)`.  The loops mirror the Rust loops, including
that a dictionary value (unlike a key) is inserted without an `End` check. -/
def parseGo : Nat → PMode → List Nat → Except ParseError (Option Value × List Nat)
  | 0, _, _ => .error .UnexpectedEOF
  | _ + 1, .value, [] => .ok (none, [])
  | f + 1, .value, a :: rest =>
    if a = 105 then
      match parseIntLoop 0 rest with
      | .ok (x, r) => .ok (some (.Integer x), r)
      | .error e => .error e
    else if a = 108 then
      parseGo f (.listLoop []) rest
    else if 48 ≤ a ∧ a ≤ 57 then
      match parseLenLoop (a - 48) rest with
      | .ok (len, brk, r) =>
        if brk = 58 then
          match readN len r with
          | .ok (s, r') => .ok (some (.ByteString s), r')
          | .error e => .error e
        else .error (.UnexpectedByte brk)
      | .error e => .error e
    else if a = 100 then
      parseGo f (.dictLoop []) rest
    else if a = 101 then
      .ok (some .End, rest)
    else .error .UnexpectedEOF
  | f + 1, .listLoop acc, input =>
    match parseGo f .value input with
    | .error e => .error e
    | .ok (none, _) => .error .UnexpectedEOF
    | .ok (some .End, rest) => .ok (some (.List acc), rest)
    | .ok (some v, rest) => parseGo f (.listLoop (acc ++ [v])) rest
  | f + 1, .dictLoop m, input =>
    match parseGo f .value input with
    | .error e => .error e
    | .ok (none, _) => .error .UnexpectedEOF
    | .ok (some .End, rest) => .ok (some (.Dictionary m), rest)
    | .ok (some k, rest) =>
      match parseGo f .value rest with
      | .error e => .error e
      | .ok (none, _) => .error .UnexpectedEOF
      | .ok (some v, rest') => parseGo f (.dictLoop (mapInsert k v m)) rest'

/-- `parse_benc_value`: parse one bencode value from the byte stream,
returning the value (or `none` on clean EOF) and the unconsumed rest.
The fuel `2 * input.length + 2` exceeds the number of recursive calls on
any input, since every loop iteration first consumes at least one byte. -/
def parse_benc_value (input : List Nat) : Except ParseError (Option Value × List Nat) :=
  parseGo (2 * input.length + 2) .value input

/-- `parse_torrent_file` of `src/parser.rs` lines 191-197: decode one value
and return the dictionary's map, or `InvalidFormat` if the decoded value is
anything else; decode errors propagate unchanged. -/
def parse_torrent_file (input : List Nat) : Except ParseError (List (Value × Value)) :=
  match parse_benc_value input with
  | .error e => .error e
  | .ok (some (.Dictionary m), _) => .ok m
  | .ok _ => .error .InvalidFormat

/-- The bytes of `"info"`. -/
def infoKey : List Nat := [105, 110, 102, 111]

/-- `parse_torrent_file` of `src/bencode.rs` lines 322-330.  After a
successful dictionary parse it indexes `root[&Value::from("info")]` (which
panics when the key is absent — modelled as `none`), inspects the entry
with an empty `if let` body, and then falls through to
`Err(ParseError::InvalidFormat)`; there is no `Ok` return anywhere. -/
def bencode_parse_torrent_file (input : List Nat) :
    Option (Except ParseError (List (Value × Value))) :=
  match parse_benc_value input with
  | .error e => some (.error e)
  | .ok (some (.Dictionary root), _) =>
    match mapLookup (.ByteString infoKey) root with
    | none => none
    | some _ => some (.error .InvalidFormat)
  | .ok _ => some (.error .InvalidFormat)

/-- The raw bytes of a `ByteString` key (`[]` for the non-key variants,
which `GoodV` rules out in key position). -/
def keyBytes : Value → List Nat
  | .ByteString bs => bs
  | _ => []

/-- Strict ascending byte-wise order on the keys of two dictionary
entries. -/
def keyLtB (p q : Value × Value) : Prop :=
  compareBytes (keyBytes p.1) (keyBytes q.1) = Ordering.lt

/-- A `Value` tree that a Rust caller can build from the bencode grammar
without negative integers: integers in `0 ≤ i < 2^63` (i64 range, no
minus sign), byte strings with a `usize` length and `u8` bytes, lists of
such values, and dictionaries whose keys are byte strings held in the
strictly ascending key order that the `BTreeMap` representation
guarantees.  `End` is excluded. -/
inductive GoodV : Value → Prop where
  | integer (i : Int) : 0 ≤ i → i < 2 ^ 63 → GoodV (.Integer i)
  | bytes (bs : List Nat) :
      bs.length < 2 ^ 64 → (∀ b ∈ bs, b < 256) → GoodV (.ByteString bs)
  | list (vs : List Value) : (∀ v ∈ vs, GoodV v) → GoodV (.List vs)
  | dict (ps : List (Value × Value)) :
      (∀ p ∈ ps, ∃ bs, p.1 = Value.ByteString bs) →
      (∀ p ∈ ps, GoodV p.1) →
      (∀ p ∈ ps, GoodV p.2) →
      ps.Pairwise keyLtB →
      GoodV (.Dictionary ps)

/-- Decimal accumulation over ASCII digit bytes, starting from `a`. -/
def natFold (a : Nat) (ds : List Nat) : Nat :=
  ds.foldl (fun x d => x * 10 + (d - 48)) a

/-- The `i64` decimal accumulation of the integer loop, without wrapping. -/
def intFold (a : Int) (ds : List Nat) : Int :=
  ds.foldl (fun x (d : Nat) => x * 10 + ((d : Int) - 48)) a

theorem wrap64_eq (z : Int) (h0 : 0 ≤ z) (h1 : z < 2 ^ 63) : wrap64 z = z := by
  unfold wrap64
  rw [Int.emod_eq_of_lt (by omega) (by omega)]
  omega

theorem natDigitsF_range : ∀ f n d, d ∈ natDigitsF f n → 48 ≤ d ∧ d ≤ 57 := by
  intro f
  induction f with
  | zero => intro n d h; simp [natDigitsF] at h
  | succ f ih =>
    intro n d h
    unfold natDigitsF at h
    by_cases hn : n < 10
    · rw [if_pos hn] at h
      simp at h
      omega
    · rw [if_neg hn] at h
      rcases List.mem_append.mp h with h' | h'
      · exact ih _ _ h'
      · simp at h'
        omega

theorem natDigitsF_ne_nil : ∀ f n, n < f → natDigitsF f n ≠ [] := by
  intro f n h
  cases f with
  | zero => omega
  | succ f =>
    unfold natDigitsF
    by_cases hn : n < 10
    · rw [if_pos hn]; simp
    · rw [if_neg hn]; simp

theorem natFold_val : ∀ f n, n < f → ∀ a,
    natFold a (natDigitsF f n) = a * 10 ^ (natDigitsF f n).length + n := by
  intro f
  induction f with
  | zero => omega
  | succ f ih =>
    intro n hn a
    unfold natDigitsF
    by_cases h10 : n < 10
    · rw [if_pos h10]
      simp [natFold]
    · rw [if_neg h10]
      have hdiv : n / 10 < f := by omega
      have happ : natFold a (natDigitsF f (n / 10) ++ [n % 10 + 48]) =
          natFold a (natDigitsF f (n / 10)) * 10 + (n % 10 + 48 - 48) := by
        simp [natFold, List.foldl_append]
      rw [happ, ih (n / 10) hdiv a, List.length_append, List.length_singleton, pow_succ,
        ← mul_assoc]
      have hdm := Nat.div_add_mod n 10
      generalize a * 10 ^ (natDigitsF f (n / 10)).length = X
      omega

theorem natDigits_val (n : Nat) : natFold 0 (natDigits n) = n := by
  have := natFold_val (n + 1) n (by omega) 0
  simpa [natDigits] using this

theorem natDigits_range (n : Nat) : ∀ d ∈ natDigits n, 48 ≤ d ∧ d ≤ 57 :=
  fun d h => natDigitsF_range (n + 1) n d h

theorem natDigits_ne_nil (n : Nat) : natDigits n ≠ [] :=
  natDigitsF_ne_nil (n + 1) n (by omega)

theorem natFold_ge : ∀ ds (x : Nat), x ≤ natFold x ds := by
  intro ds
  induction ds with
  | nil => intro x; simp [natFold]
  | cons d ds ih =>
    intro x
    have h1 : x ≤ x * 10 + (d - 48) := by omega
    calc x ≤ x * 10 + (d - 48) := h1
      _ ≤ natFold (x * 10 + (d - 48)) ds := ih _
      _ = natFold x (d :: ds) := by simp [natFold]

theorem intFold_ge : ∀ ds (x : Int), 0 ≤ x → (∀ d ∈ ds, 48 ≤ d) →
    x ≤ intFold x ds ∧ 0 ≤ intFold x ds := by
  intro ds
  induction ds with
  | nil => intro x hx _; simp [intFold]; omega
  | cons d ds ih =>
    intro x hx h
    have hd : (48 : Int) ≤ (d : Int) := by exact_mod_cast h d (List.mem_cons_self d ds)
    have h1 : x ≤ x * 10 + ((d : Int) - 48) := by omega
    have h0 : (0 : Int) ≤ x * 10 + ((d : Int) - 48) := by omega
    have := ih (x * 10 + ((d : Int) - 48)) h0 (fun d' hd' => h d' (List.mem_cons_of_mem d hd'))
    have heq : intFold x (d :: ds) = intFold (x * 10 + ((d : Int) - 48)) ds := by
      simp [intFold]
    omega

theorem parseIntLoop_spec : ∀ ds (x : Int) rest, (∀ d ∈ ds, 48 ≤ d ∧ d ≤ 57) → 0 ≤ x →
    intFold x ds < 2 ^ 63 →
    parseIntLoop x (ds ++ 101 :: rest) = .ok (intFold x ds, rest) := by
  intro ds
  induction ds with
  | nil =>
    intro x rest _ _ _
    simp [parseIntLoop, intFold]
  | cons d ds ih =>
    intro x rest h hx hlt
    have hd := h d (List.mem_cons_self d ds)
    have hds : ∀ d' ∈ ds, 48 ≤ d' ∧ d' ≤ 57 := fun d' hd' => h d' (List.mem_cons_of_mem d hd')
    have hdi : (48 : Int) ≤ (d : Int) := by exact_mod_cast hd.1
    rw [List.cons_append]
    unfold parseIntLoop
    rw [if_neg (by omega : ¬ d = 101)]
    have hmod : (d + 208) % 256 = d - 48 := by omega
    rw [hmod]
    have hc : ((d - 48 : Nat) : Int) = (d : Int) - 48 := by omega
    rw [hc]
    have harg0 : (0 : Int) ≤ x * 10 + ((d : Int) - 48) := by omega
    have hfold : intFold x (d :: ds) = intFold (x * 10 + ((d : Int) - 48)) ds := by
      simp [intFold]
    rw [hfold] at hlt
    have hge := intFold_ge ds (x * 10 + ((d : Int) - 48)) harg0 (fun d' h' => (hds d' h').1)
    rw [wrap64_eq _ harg0 (lt_of_le_of_lt hge.1 hlt)]
    rw [ih _ rest hds harg0 hlt, hfold]

theorem parseLenLoop_spec : ∀ ds (len : Nat) b rest, (∀ d ∈ ds, 48 ≤ d ∧ d ≤ 57) →
    ¬(48 ≤ b ∧ b ≤ 57) → natFold len ds < 2 ^ 64 →
    parseLenLoop len (ds ++ b :: rest) = .ok (natFold len ds, b, rest) := by
  intro ds
  induction ds with
  | nil =>
    intro len b rest _ hb _
    rw [List.nil_append]
    unfold parseLenLoop
    rw [if_neg hb]
    simp [natFold]
  | cons d ds ih =>
    intro len b rest h hb hlt
    have hd := h d (List.mem_cons_self d ds)
    have hds : ∀ d' ∈ ds, 48 ≤ d' ∧ d' ≤ 57 := fun d' hd' => h d' (List.mem_cons_of_mem d hd')
    rw [List.cons_append]
    unfold parseLenLoop
    rw [if_pos hd]
    have hfold : natFold len (d :: ds) = natFold (len * 10 + (d - 48)) ds := by
      simp [natFold]
    rw [hfold] at hlt
    have hge := natFold_ge ds (len * 10 + (d - 48))
    have hsm : (len * 10 + (d - 48)) % 18446744073709551616 = len * 10 + (d - 48) := by
      have : len * 10 + (d - 48) < 18446744073709551616 := by
        calc len * 10 + (d - 48) ≤ natFold (len * 10 + (d - 48)) ds := hge
          _ < 2 ^ 64 := hlt
          _ = 18446744073709551616 := by norm_num
      omega
    rw [hsm, ih _ b rest hds hb hlt, hfold]

theorem readN_append : ∀ (l r : List Nat), readN l.length (l ++ r) = .ok (l, r) := by
  intro l
  induction l with
  | nil => intro r; rfl
  | cons b t ih =>
    intro r
    simp only [List.length_cons, List.cons_append]
    unfold readN
    rw [ih r]

theorem compareBytes_gt_of_lt : ∀ xs ys : List Nat,
    compareBytes xs ys = .lt → compareBytes ys xs = .gt := by
  intro xs
  induction xs with
  | nil =>
    intro ys h
    cases ys with
    | nil => simp [compareBytes] at h
    | cons y t => rfl
  | cons x xs ih =>
    intro ys h
    cases ys with
    | nil => simp [compareBytes] at h
    | cons y t =>
      unfold compareBytes at h ⊢
      by_cases h1 : x < y
      · rw [if_neg (by omega : ¬ y < x), if_neg (by omega : ¬ y = x)]
      · rw [if_neg h1] at h
        by_cases h2 : x = y
        · subst h2
          rw [if_pos rfl] at h
          rw [if_neg (by omega : ¬ x < x), if_pos rfl]
          exact ih t h
        · rw [if_neg h2] at h
          simp at h

theorem mapInsert_append : ∀ (m : List (Value × Value)) (kb : List Nat) (v : Value),
    (∀ p ∈ m, ∃ bs, p.1 = Value.ByteString bs ∧ compareBytes bs kb = .lt) →
    mapInsert (.ByteString kb) v m = m ++ [(.ByteString kb, v)] := by
  intro m kb v
  induction m with
  | nil => intro _; rfl
  | cons p t ih =>
    intro h
    obtain ⟨bs, hp1, hlt⟩ := h p (List.mem_cons_self p t)
    obtain ⟨k', v'⟩ := p
    simp only at hp1
    subst hp1
    have hcmp : valueCompare (.ByteString kb) (.ByteString bs) = .gt :=
      compareBytes_gt_of_lt bs kb hlt
    unfold mapInsert
    rw [hcmp]
    rw [ih (fun p hp => h p (List.mem_cons_of_mem _ hp))]
    simp

theorem encode_length_ge : ∀ v : Value, v ≠ .End → 2 ≤ (encode v).length := by
  intro v hv
  cases v with
  | Integer i => simp [encode]
  | ByteString bs =>
    have := natDigits_ne_nil bs.length
    simp [encode]
    cases h : natDigits bs.length with
    | nil => exact absurd h this
    | cons d t => simp [h]; omega
  | List l => simp [encode]
  | Dictionary d => simp [encode]
  | End => exact absurd rfl hv

theorem GoodV_ne_End : ∀ v : Value, GoodV v → v ≠ .End := by
  intro v h
  cases h <;> simp

theorem parseGo_int (f : Nat) (rest : List Nat) :
    parseGo (f + 1) .value (105 :: rest) =
      (match parseIntLoop 0 rest with
        | .ok (x, r) => .ok (some (.Integer x), r)
        | .error e => .error e) := rfl

theorem parseGo_list (f : Nat) (rest : List Nat) :
    parseGo (f + 1) .value (108 :: rest) = parseGo f (.listLoop []) rest := rfl

theorem parseGo_dict (f : Nat) (rest : List Nat) :
    parseGo (f + 1) .value (100 :: rest) = parseGo f (.dictLoop []) rest := rfl

theorem parseGo_end (f : Nat) (rest : List Nat) :
    parseGo (f + 1) .value (101 :: rest) = .ok (some .End, rest) := rfl

theorem parseGo_digit (f : Nat) (a : Nat) (h1 : 48 ≤ a) (h2 : a ≤ 57) (rest : List Nat) :
    parseGo (f + 1) .value (a :: rest) =
      (match parseLenLoop (a - 48) rest with
        | .ok (len, brk, r) =>
          if brk = 58 then
            match readN len r with
            | .ok (s, r') => .ok (some (.ByteString s), r')
            | .error e => .error e
          else .error (.UnexpectedByte brk)
        | .error e => .error e) := by
  simp only [parseGo]
  rw [if_neg (by omega : ¬ a = 105), if_neg (by omega : ¬ a = 108), if_pos ⟨h1, h2⟩]

theorem parseGo_listLoop_end (f : Nat) (acc : List Value) (input rest : List Nat)
    (hv : parseGo f .value input = .ok (some .End, rest)) :
    parseGo (f + 1) (.listLoop acc) input = .ok (some (.List acc), rest) := by
  simp only [parseGo, hv]

theorem parseGo_listLoop_cont (f : Nat) (acc : List Value) (input : List Nat) (v : Value)
    (rest : List Nat) (hv : parseGo f .value input = .ok (some v, rest)) (hne : v ≠ .End) :
    parseGo (f + 1) (.listLoop acc) input = parseGo f (.listLoop (acc ++ [v])) rest := by
  cases v with
  | End => exact absurd rfl hne
  | Integer i => simp only [parseGo, hv]
  | ByteString bs => simp only [parseGo, hv]
  | List l => simp only [parseGo, hv]
  | Dictionary d => simp only [parseGo, hv]

theorem parseGo_dictLoop_end (f : Nat) (m : List (Value × Value)) (input rest : List Nat)
    (hv : parseGo f .value input = .ok (some .End, rest)) :
    parseGo (f + 1) (.dictLoop m) input = .ok (some (.Dictionary m), rest) := by
  simp only [parseGo, hv]

theorem parseGo_dictLoop_cont (f : Nat) (m : List (Value × Value)) (input : List Nat)
    (k : Value) (rest : List Nat) (v : Value) (rest' : List Nat)
    (hk : parseGo f .value input = .ok (some k, rest)) (hne : k ≠ .End)
    (hv : parseGo f .value rest = .ok (some v, rest')) :
    parseGo (f + 1) (.dictLoop m) input = parseGo f (.dictLoop (mapInsert k v m)) rest' := by
  cases k with
  | End => exact absurd rfl hne
  | Integer i => simp only [parseGo, hk, hv]
  | ByteString bs => simp only [parseGo, hk, hv]
  | List l => simp only [parseGo, hk, hv]
  | Dictionary d => simp only [parseGo, hk, hv]

theorem intFold_natFold : ∀ ds (a : Nat), (∀ d ∈ ds, 48 ≤ d) →
    intFold (a : Int) ds = ((natFold a ds : Nat) : Int) := by
  intro ds
  induction ds with
  | nil => intro a _; simp [intFold, natFold]
  | cons d ds ih =>
    intro a h
    have hd := h d (List.mem_cons_self d ds)
    have harg : (a : Int) * 10 + ((d : Int) - 48) = ((a * 10 + (d - 48) : Nat) : Int) := by
      omega
    have h1 : intFold (a : Int) (d :: ds) = intFold ((a * 10 + (d - 48) : Nat) : Int) ds := by
      simp only [intFold, List.foldl_cons]
      rw [harg]
    have h2 : natFold a (d :: ds) = natFold (a * 10 + (d - 48)) ds := by
      simp [natFold]
    rw [h1, h2, ih _ (fun x hx => h x (List.mem_cons_of_mem d hx))]

theorem value_sizeOf_pos : ∀ v : Value, 1 ≤ sizeOf v := by
  intro v
  cases v <;> simp

theorem parseGo_encode_aux : ∀ (n : Nat) (v : Value), sizeOf v ≤ n → GoodV v →
    ∀ (rest : List Nat) (fuel : Nat), 2 * (encode v).length ≤ fuel →
    parseGo fuel .value (encode v ++ rest) = .ok (some v, rest) := by
  intro n
  induction n with
  | zero =>
    intro v hs
    have := value_sizeOf_pos v
    omega
  | succ n ih =>
    intro v hs hg rest fuel hf
    cases hg with
    | integer i h0 h1 =>
      have h2 : 2 ≤ (encode (Value.Integer i)).length := encode_length_ge _ (by simp)
      obtain ⟨f, rfl⟩ : ∃ f, fuel = f + 1 := ⟨fuel - 1, by omega⟩
      have hneg : ¬ i < 0 := by omega
      have henc : encode (Value.Integer i) ++ rest =
          105 :: (natDigits i.natAbs ++ 101 :: rest) := by
        simp [encode, intToDecimal, hneg]
      rw [henc, parseGo_int]
      have hrange := natDigits_range i.natAbs
      have hvalI : intFold 0 (natDigits i.natAbs) = i := by
        have hc := intFold_natFold (natDigits i.natAbs) 0 (fun d hd => (hrange d hd).1)
        simp only [Nat.cast_zero] at hc
        rw [hc, natDigits_val]
        exact Int.natAbs_of_nonneg h0
      rw [parseIntLoop_spec (natDigits i.natAbs) 0 rest hrange (by omega)
        (by rw [hvalI]; exact h1)]
      rw [hvalI]
    | bytes bs hlen hbytes =>
      obtain ⟨f, rfl⟩ : ∃ f, fuel = f + 1 :=
        ⟨fuel - 1, by have := encode_length_ge (Value.ByteString bs) (by simp); omega⟩
      cases hnd : natDigits bs.length with
      | nil => exact absurd hnd (natDigits_ne_nil _)
      | cons d ds =>
        have hrange := natDigits_range bs.length
        have hd : 48 ≤ d ∧ d ≤ 57 := hrange d (by rw [hnd]; exact List.mem_cons_self d ds)
        have hds : ∀ x ∈ ds, 48 ≤ x ∧ x ≤ 57 :=
          fun x hx => hrange x (by rw [hnd]; exact List.mem_cons_of_mem d hx)
        have henc : encode (Value.ByteString bs) ++ rest = d :: (ds ++ 58 :: (bs ++ rest)) := by
          simp [encode, hnd]
        rw [henc, parseGo_digit f d hd.1 hd.2]
        have hfold : natFold (d - 48) ds = bs.length := by
          have h1 := natDigits_val bs.length
          rw [hnd] at h1
          simpa [natFold] using h1
        rw [parseLenLoop_spec ds (d - 48) 58 (bs ++ rest) hds (by omega)
          (by rw [hfold]; exact hlen)]
        rw [hfold]
        simp [readN_append]
    | list vs hvs =>
      have h2 : 2 ≤ (encode (Value.List vs)).length := encode_length_ge _ (by simp)
      obtain ⟨f, rfl⟩ : ∃ f, fuel = f + 1 := ⟨fuel - 1, by omega⟩
      have henc : encode (Value.List vs) ++ rest = 108 :: (encodeList vs ++ 101 :: rest) := by
        simp [encode]
      rw [henc, parseGo_list]
      have hlen : (encode (Value.List vs)).length = 2 + (encodeList vs).length := by
        simp [encode]
        omega
      have hsz : ∀ x ∈ vs, sizeOf x ≤ n := by
        intro x hx
        have h1 := List.sizeOf_lt_of_mem hx
        have h2 : sizeOf (Value.List vs) = 1 + sizeOf vs := by simp
        omega
      have hLL : ∀ (vs' : List Value), (∀ x ∈ vs', GoodV x) → (∀ x ∈ vs', sizeOf x ≤ n) →
          ∀ (acc : List Value) (rest' : List Nat) (fuel' : Nat),
            2 * (encodeList vs').length + 2 ≤ fuel' →
            parseGo fuel' (.listLoop acc) (encodeList vs' ++ 101 :: rest') =
              .ok (some (.List (acc ++ vs')), rest') := by
        intro vs'
        induction vs' with
        | nil =>
          intro _ _ acc rest' fuel' hf'
          obtain ⟨f1, rfl⟩ : ∃ f1, fuel' = f1 + 1 := ⟨fuel' - 1, by omega⟩
          obtain ⟨f2, rfl⟩ : ∃ f2, f1 = f2 + 1 := ⟨f1 - 1, by omega⟩
          simp only [encodeList, List.nil_append]
          rw [parseGo_listLoop_end (f2 + 1) acc _ rest' (parseGo_end f2 rest')]
          simp
        | cons v' t iht =>
          intro hgood hsize acc rest' fuel' hf'
          obtain ⟨f1, rfl⟩ : ∃ f1, fuel' = f1 + 1 := ⟨fuel' - 1, by omega⟩
          have hgv' := hgood v' (List.mem_cons_self v' t)
          have hlv : 2 ≤ (encode v').length := encode_length_ge v' (GoodV_ne_End v' hgv')
          have hlent : (encodeList (v' :: t)).length =
              (encode v').length + (encodeList t).length := by
            simp [encodeList]
          have harr : encodeList (v' :: t) ++ 101 :: rest' =
              encode v' ++ (encodeList t ++ 101 :: rest') := by
            simp [encodeList]
          rw [harr]
          have hkv := ih v' (hsize v' (List.mem_cons_self v' t)) hgv'
            (encodeList t ++ 101 :: rest') f1 (by omega)
          rw [parseGo_listLoop_cont f1 acc _ v' _ hkv (GoodV_ne_End v' hgv')]
          have := iht (fun x hx => hgood x (List.mem_cons_of_mem v' hx))
            (fun x hx => hsize x (List.mem_cons_of_mem v' hx)) (acc ++ [v']) rest' f1
            (by omega)
          simpa using this
      have := hLL vs hvs hsz [] rest f (by rw [hlen] at hf; omega)
      simpa using this
    | dict ps hks hgk hgv hsort =>
      have h2 : 2 ≤ (encode (Value.Dictionary ps)).length := encode_length_ge _ (by simp)
      obtain ⟨f, rfl⟩ : ∃ f, fuel = f + 1 := ⟨fuel - 1, by omega⟩
      have henc : encode (Value.Dictionary ps) ++ rest =
          100 :: (encodePairs ps ++ 101 :: rest) := by
        simp [encode]
      rw [henc, parseGo_dict]
      have hlen : (encode (Value.Dictionary ps)).length = 2 + (encodePairs ps).length := by
        simp [encode]
        omega
      have hsz : ∀ p ∈ ps, sizeOf p.1 ≤ n ∧ sizeOf p.2 ≤ n := by
        intro p hp
        obtain ⟨a, b⟩ := p
        have h1 := List.sizeOf_lt_of_mem hp
        have h3 : sizeOf (Value.Dictionary ps) = 1 + sizeOf ps := by simp
        have h4 : sizeOf (a, b) = 1 + sizeOf a + sizeOf b := by simp
        simp only at h1 ⊢
        omega
      have hDL : ∀ (ps' : List (Value × Value)),
          (∀ p ∈ ps', ∃ bs, p.1 = Value.ByteString bs) →
          (∀ p ∈ ps', GoodV p.1) → (∀ p ∈ ps', GoodV p.2) →
          ps'.Pairwise keyLtB →
          (∀ p ∈ ps', sizeOf p.1 ≤ n ∧ sizeOf p.2 ≤ n) →
          ∀ (m : List (Value × Value)),
            (∀ pm ∈ m, ∀ pp ∈ ps', keyLtB pm pp) →
            (∀ pm ∈ m, ∃ bs, pm.1 = Value.ByteString bs) →
          ∀ (rest' : List Nat) (fuel' : Nat), 2 * (encodePairs ps').length + 2 ≤ fuel' →
            parseGo fuel' (.dictLoop m) (encodePairs ps' ++ 101 :: rest') =
              .ok (some (.Dictionary (m ++ ps')), rest') := by
        intro ps'
        induction ps' with
        | nil =>
          intro _ _ _ _ _ m _ _ rest' fuel' hf'
          obtain ⟨f1, rfl⟩ : ∃ f1, fuel' = f1 + 1 := ⟨fuel' - 1, by omega⟩
          obtain ⟨f2, rfl⟩ : ∃ f2, f1 = f2 + 1 := ⟨f1 - 1, by omega⟩
          simp only [encodePairs, List.nil_append]
          rw [parseGo_dictLoop_end (f2 + 1) m _ rest' (parseGo_end f2 rest')]
          simp
        | cons p t iht =>
          intro hks' hgk' hgv' hsort' hsize' m hm' hmk' rest' fuel' hf'
          obtain ⟨f1, rfl⟩ : ∃ f1, fuel' = f1 + 1 := ⟨fuel' - 1, by omega⟩
          obtain ⟨k, v⟩ := p
          obtain ⟨kb, hkb⟩ := hks' (k, v) (List.mem_cons_self (k, v) t)
          simp only at hkb
          subst hkb
          have hgvk : GoodV (Value.ByteString kb) :=
            hgk' (Value.ByteString kb, v) (List.mem_cons_self _ t)
          have hgvv : GoodV v := hgv' (Value.ByteString kb, v) (List.mem_cons_self _ t)
          have hszp := hsize' (Value.ByteString kb, v) (List.mem_cons_self _ t)
          have hlk : 2 ≤ (encode (Value.ByteString kb)).length := encode_length_ge _ (by simp)
          have hlv : 2 ≤ (encode v).length := encode_length_ge v (GoodV_ne_End v hgvv)
          have hlent : (encodePairs ((Value.ByteString kb, v) :: t)).length =
              (encode (Value.ByteString kb)).length + (encode v).length +
                (encodePairs t).length := by
            simp [encodePairs]
            omega
          have harr : encodePairs ((Value.ByteString kb, v) :: t) ++ 101 :: rest' =
              encode (Value.ByteString kb) ++ (encode v ++ (encodePairs t ++ 101 :: rest')) := by
            simp [encodePairs]
          rw [harr]
          have hkparse := ih (Value.ByteString kb) hszp.1 hgvk
            (encode v ++ (encodePairs t ++ 101 :: rest')) f1 (by omega)
          have hvparse := ih v hszp.2 hgvv (encodePairs t ++ 101 :: rest') f1 (by omega)
          rw [parseGo_dictLoop_cont f1 m _ (Value.ByteString kb) _ v _ hkparse (by simp)
            hvparse]
          have hins : mapInsert (Value.ByteString kb) v m =
              m ++ [(Value.ByteString kb, v)] := by
            apply mapInsert_append
            intro pm hpm
            obtain ⟨bs, hbs⟩ := hmk' pm hpm
            refine ⟨bs, hbs, ?_⟩
            have := hm' pm hpm (Value.ByteString kb, v) (List.mem_cons_self _ t)
            unfold keyLtB at this
            rw [hbs] at this
            simpa [keyBytes] using this
          rw [hins]
          have hpw := List.pairwise_cons.mp hsort'
          have hm2 : ∀ pm ∈ m ++ [(Value.ByteString kb, v)], ∀ pp ∈ t, keyLtB pm pp := by
            intro pm hpm pp hpp
            rcases List.mem_append.mp hpm with h' | h'
            · exact hm' pm h' pp (List.mem_cons_of_mem _ hpp)
            · simp at h'
              subst h'
              exact hpw.1 pp hpp
          have hmk2 : ∀ pm ∈ m ++ [(Value.ByteString kb, v)],
              ∃ bs, pm.1 = Value.ByteString bs := by
            intro pm hpm
            rcases List.mem_append.mp hpm with h' | h'
            · exact hmk' pm h'
            · simp at h'
              subst h'
              exact ⟨kb, rfl⟩
          have := iht (fun p hp => hks' p (List.mem_cons_of_mem _ hp))
            (fun p hp => hgk' p (List.mem_cons_of_mem _ hp))
            (fun p hp => hgv' p (List.mem_cons_of_mem _ hp))
            hpw.2 (fun p hp => hsize' p (List.mem_cons_of_mem _ hp))
            (m ++ [(Value.ByteString kb, v)]) hm2 hmk2 rest' f1 (by omega)
          rw [this]
          simp
      have := hDL ps hks hgk hgv hsort hsz [] (by simp) (by simp) rest f
        (by rw [hlen] at hf; omega)
      simpa using this

theorem parseGo_encode (v : Value) (hg : GoodV v) (rest : List Nat) (fuel : Nat)
    (hf : 2 * (encode v).length ≤ fuel) :
    parseGo fuel .value (encode v ++ rest) = .ok (some v, rest) :=
  parseGo_encode_aux (sizeOf v) v (le_refl _) hg rest fuel hf

/-- The key `b"abc"`. -/
def keyABC : Value := .ByteString [97, 98, 99]

/-- The key `b"cow"`. -/
def keyCOW : Value := .ByteString [99, 111, 119]

/-- The key `b"spam"`. -/
def keySPAM : Value := .ByteString [115, 112, 97, 109]

/-- A concrete grammar-constructible value (a dictionary with byte-string
keys holding an integer and a list) used to witness the round-trip
theorem. -/
def roundtripWitnessValue : Value :=
  .Dictionary [(.ByteString [99, 111, 119], .Integer 3),
               (.ByteString [115, 112, 97, 109], .List [.ByteString [97, 98]])]

theorem roundtripWitnessValue_good : GoodV roundtripWitnessValue := by
  unfold roundtripWitnessValue
  refine GoodV.dict _ ?_ ?_ ?_ ?_
  · intro p hp
    simp at hp
    rcases hp with rfl | rfl
    · exact ⟨_, rfl⟩
    · exact ⟨_, rfl⟩
  · intro p hp
    simp at hp
    rcases hp with rfl | rfl
    · exact GoodV.bytes _ (by norm_num) (by decide)
    · exact GoodV.bytes _ (by norm_num) (by decide)
  · intro p hp
    simp at hp
    rcases hp with rfl | rfl
    · exact GoodV.integer 3 (by norm_num) (by norm_num)
    · refine GoodV.list _ ?_
      intro x hx
      simp at hx
      subst hx
      exact GoodV.bytes _ (by norm_num) (by decide)
  · refine List.Pairwise.cons ?_ (List.Pairwise.cons (by simp) List.Pairwise.nil)
    intro q hq
    simp at hq
    subst hq
    rfl

/-- C1 (amended): for every `Value` constructible by the bencode grammar
(no `End`, dictionary keys are byte strings in the `BTreeMap`'s sorted
representation, `i64`-range integers) **that contains no negative
integers**, decoding the canonical encoding yields `Some` of the original
value with no input left over.  The restriction to non-negative integers
is forced by `claim1_counterexample`: the decoder has no minus-sign
handling, so negative integers do not round-trip. -/
theorem claim1_roundtrip (v : Value) (hg : GoodV v) :
    parse_benc_value (encode v) = .ok (some v, []) := by
  unfold parse_benc_value
  have h := parseGo_encode v hg [] (2 * (encode v).length + 2) (by omega)
  simpa using h

/-- C1 witness: the round-trip theorem applied to a concrete dictionary
containing an integer and a nested list. -/
theorem claim1_witness :
    GoodV roundtripWitnessValue ∧
      parse_benc_value (encode roundtripWitnessValue) = .ok (some roundtripWitnessValue, []) :=
  ⟨roundtripWitnessValue_good, claim1_roundtrip roundtripWitnessValue roundtripWitnessValue_good⟩

/-- C1 counterexample: `Integer (-3)` is constructible by the bencode
grammar, its encoding is `"i-3e"`, but decoding that encoding yields
`Integer 2533` (the `u8` wrap of `'-' - '0'` is 253, and the loop computes
`253 * 10 + 3`), not `Integer (-3)`.  So `decode(encode(v)) == Some(v)`
fails at `v = Integer (-3)`. -/
theorem claim1_counterexample :
    parse_benc_value (encode (Value.Integer (-3))) = .ok (some (Value.Integer 2533), []) ∧
      Value.Integer 2533 ≠ Value.Integer (-3) := by
  refine ⟨rfl, ?_⟩
  intro h
  injection h with h'
  omega

/-- C2: the decoder does not accept a leading `-`: on the input `"i-3e"`
(bytes `105, 45, 51, 101`) it returns `Integer 2533` — the byte `'-'` (45)
is pushed through the wrapping `u8` subtraction `45 - 48 = 253` and
accumulated as a digit (`253 * 10 + 3 = 2533`) — instead of the
`Integer (-3)` the specification requires (in a debug build the same
subtraction panics on underflow). -/
theorem claim2_negative_integer_eval :
    parse_benc_value [105, 45, 51, 101] = .ok (some (Value.Integer 2533), []) := rfl

/-- C3: the `End` sentinel does escape to the external caller: decoding
the input `"e"` returns `Ok(Some(End))` at top level, and decoding
`"d1:aeee"` returns a dictionary whose value for key `"a"` is `End`
(the dictionary loop checks only the key, not the value, for the
terminator). -/
theorem claim3_end_sentinel_escapes :
    parse_benc_value [101] = .ok (some Value.End, []) ∧
      parse_benc_value [100, 49, 58, 97, 101, 101, 101] =
        .ok (some (.Dictionary [(.ByteString [97], .End)]), [101]) :=
  ⟨rfl, rfl⟩

/-- C4: the encoder emits `d`, the `(key, value)` encodings in the map's
sorted (ascending raw byte-wise) key order, then `e`; a dictionary built
by inserting the keys `b"spam"`, `b"cow"`, `b"abc"` in that order — or in
any of the six insertion orders — holds its entries as
`[abc, cow, spam]`, and its encoding is the `d`-prefixed concatenation in
exactly that key order for arbitrary values `va`, `vb`, `vc`. -/
theorem claim4_canonical_dictionary_order : ∀ va vb vc : Value,
    (∀ d : List (Value × Value), encode (.Dictionary d) = 100 :: encodePairs d ++ [101]) ∧
    (mapInsert keyABC va (mapInsert keyCOW vb (mapInsert keySPAM vc [])) =
        [(keyABC, va), (keyCOW, vb), (keySPAM, vc)] ∧
      mapInsert keyCOW vb (mapInsert keyABC va (mapInsert keySPAM vc [])) =
        [(keyABC, va), (keyCOW, vb), (keySPAM, vc)] ∧
      mapInsert keyABC va (mapInsert keySPAM vc (mapInsert keyCOW vb [])) =
        [(keyABC, va), (keyCOW, vb), (keySPAM, vc)] ∧
      mapInsert keySPAM vc (mapInsert keyABC va (mapInsert keyCOW vb [])) =
        [(keyABC, va), (keyCOW, vb), (keySPAM, vc)] ∧
      mapInsert keyCOW vb (mapInsert keySPAM vc (mapInsert keyABC va [])) =
        [(keyABC, va), (keyCOW, vb), (keySPAM, vc)] ∧
      mapInsert keySPAM vc (mapInsert keyCOW vb (mapInsert keyABC va [])) =
        [(keyABC, va), (keyCOW, vb), (keySPAM, vc)]) ∧
    encode (.Dictionary [(keyABC, va), (keyCOW, vb), (keySPAM, vc)]) =
      [100, 51, 58, 97, 98, 99] ++ encode va ++ [51, 58, 99, 111, 119] ++ encode vb ++
        [52, 58, 115, 112, 97, 109] ++ encode vc ++ [101] := by
  intro va vb vc
  refine ⟨fun d => rfl, ⟨rfl, rfl, rfl, rfl, rfl, rfl⟩, ?_⟩
  simp [encode, encodePairs, keyABC, keyCOW, keySPAM, natDigits, natDigitsF]

/-- C5 (amended): `parse_torrent_file` of `src/parser.rs` decodes one
value and returns the dictionary's entries when that value is a
`Dictionary`; when the decoded value is anything else — a bare `List`, a
bare `Integer`, or the clean-EOF `None` of empty input — it returns
`InvalidFormat`.  But for input on which the decoder itself fails, such as
the prematurely ended `"i3"`, the decoder's own error (`UnexpectedEOF`) is
propagated unchanged instead of the `InvalidFormat` the claim states
(forced by `claim5_counterexample`). -/
theorem claim5_root_shape : ∀ input,
    (∀ m rest, parse_benc_value input = .ok (some (.Dictionary m), rest) →
      parse_torrent_file input = .ok m) ∧
    (∀ ov rest, parse_benc_value input = .ok (ov, rest) →
      (∀ m, ov ≠ some (.Dictionary m)) → parse_torrent_file input = .error .InvalidFormat) ∧
    (∀ e, parse_benc_value input = .error e → parse_torrent_file input = .error e) ∧
    parse_torrent_file [108, 101] = .error .InvalidFormat ∧
    parse_torrent_file [105, 49, 101] = .error .InvalidFormat ∧
    parse_torrent_file [] = .error .InvalidFormat ∧
    parse_torrent_file [105, 51] = .error .UnexpectedEOF := by
  intro input
  refine ⟨?_, ?_, ?_, rfl, rfl, rfl, rfl⟩
  · intro m rest h
    unfold parse_torrent_file
    rw [h]
  · intro ov rest h hne
    unfold parse_torrent_file
    rw [h]
    rcases ov with _ | v
    · rfl
    · cases v with
      | Dictionary m => exact absurd rfl (hne m)
      | _ => rfl
  · intro e h
    unfold parse_torrent_file
    rw [h]

/-- C5 witness: on the empty dictionary input `"de"` the helper returns
the dictionary's (empty) entry list. -/
theorem claim5_witness : parse_torrent_file [100, 101] = .ok [] :=
  (claim5_root_shape [100, 101]).1 [] [] rfl

/-- C5 counterexample: the prematurely ended input `"i3"` makes
`parse_torrent_file` return `UnexpectedEOF`, not the `InvalidFormat` the
claim asserts for "empty or prematurely ended input". -/
theorem claim5_counterexample :
    parse_torrent_file [105, 51] = .error .UnexpectedEOF ∧
      ParseError.UnexpectedEOF ≠ ParseError.InvalidFormat :=
  ⟨rfl, by decide⟩

/-- C6: the decoder has no leading-zero check (and the `ParseError` enum
has no `InvalidLength` variant at all): decoding `"i03e"` succeeds with
`Integer 3` instead of failing. -/
theorem claim6_leading_zero_eval :
    parse_benc_value [105, 48, 51, 101] = .ok (some (Value.Integer 3), []) := rfl

/-- C7: a dictionary key that decodes to a non-byte-string is accepted,
not rejected: decoding `"di1ei2ee"` returns the dictionary
`{Integer 1 ↦ Integer 2}` rather than a decode error. -/
theorem claim7_dictionary_key_eval :
    parse_benc_value [100, 105, 49, 101, 105, 50, 101, 101] =
      .ok (some (.Dictionary [(.Integer 1, .Integer 2)]), []) := rfl

/-- C8: an integer one past `i64::MAX` is not rejected: decoding
`"i9223372036854775808e"` (the value 2^63) returns the wrapped value
`Integer (-9223372036854775808)` — release-mode two's-complement
wrap-around of `x *= 10; x += d` — instead of a decode error (a debug
build panics at the same point). -/
theorem claim8_overflow_eval :
    parse_benc_value
        [105, 57, 50, 50, 51, 51, 55, 50, 48, 51, 54, 56, 53, 52, 55, 55, 53, 56, 48, 56, 101] =
      .ok (some (Value.Integer (-9223372036854775808)), []) := rfl

/-- C9: `parse_torrent_file` of `src/bencode.rs` never returns `Ok`:
whenever it returns at all (`some r`; `none` models the panic of the
`root[&"info"]` indexing on a missing key), the result is an error. -/
theorem claim9_never_ok : ∀ input r, bencode_parse_torrent_file input = some r →
    ∃ e, r = .error e := by
  intro input r h
  unfold bencode_parse_torrent_file at h
  split at h
  · exact ⟨_, (Option.some.inj h).symm⟩
  · split at h
    · exact absurd h (by simp)
    · exact ⟨_, (Option.some.inj h).symm⟩
  · exact ⟨_, (Option.some.inj h).symm⟩

/-- C9 witness: on empty input the function returns, and the returned
value is the `InvalidFormat` error. -/
theorem claim9_witness :
    ∃ e, (Except.error ParseError.InvalidFormat :
      Except ParseError (List (Value × Value))) = .error e :=
  claim9_never_ok [] (.error .InvalidFormat) rfl

theorem hexEncode_length : ∀ bs : List Nat, (hexEncode bs).length = 2 * bs.length := by
  intro bs
  induction bs with
  | nil => rfl
  | cons b t ih =>
    simp [hexEncode] at ih ⊢
    omega

/-- C10: for every non-empty `ByteString`, the `AsciiString` encoder of
`src/parser.rs` emits the raw byte count as length prefix but the hex
encoding of the bytes as payload, so the payload is twice as long as the
prefix promises and the output differs from the valid bencode encoding of
that value. -/
theorem claim10_hex_mismatch : ∀ bs : List Nat, bs ≠ [] →
    encodeAscii (.ByteString bs) = natDigits bs.length ++ 58 :: hexEncode bs ∧
    (hexEncode bs).length = 2 * bs.length ∧
    bs.length ≠ (hexEncode bs).length ∧
    encodeAscii (.ByteString bs) ≠ encode (.ByteString bs) := by
  intro bs hne
  have hlen : bs.length ≠ 0 := by simpa using hne
  have h2 : (hexEncode bs).length = 2 * bs.length := hexEncode_length bs
  refine ⟨rfl, h2, by omega, ?_⟩
  intro h
  have := congrArg List.length h
  simp [encodeAscii, encode, List.length_append, h2] at this
  omega

/-- C10 witness: the mismatch at the one-byte string `"a"`, whose emitted
form is `"1:61"`. -/
theorem claim10_witness :
    encodeAscii (.ByteString [97]) = natDigits ([97] : List Nat).length ++ 58 :: hexEncode [97] ∧
    (hexEncode [97]).length = 2 * ([97] : List Nat).length ∧
    ([97] : List Nat).length ≠ (hexEncode [97]).length ∧
    encodeAscii (.ByteString [97]) ≠ encode (.ByteString [97]) :=
  claim10_hex_mismatch [97] (by simp)
